import Mathlib

/-!
Verification of the `num` library (base-10 integer to alternative textual
representations: arbitrary-base positional encoding, base-52 letters, Roman
numerals, English words, human-readable byte sizes).

The Go source is shallowly embedded below.  Go `int` inputs become `Int`;
fallible functions return `Except NumError String`; the unbounded `for`
loops of the source become fuel-indexed structural recursions where the fuel
is a loop-iteration bound established by the surrounding guards (each such
definition documents the bound).  Strings are Lean `String`s (lists of
unicode scalar values), matching Go strings for every input appearing here.
-/

namespace GoNum

/-- Error taxonomy of the library (spec section 7).  Each constructor stands
for one of the distinguishable failure messages returned by the Go code. -/
inductive NumError where
  /-- Go: "Input number cannot be negative. Got %d". -/
  | NegativeInput (n : Int)
  /-- Go: "Encoding cannot be an empty string.". -/
  | EmptyAlphabet
  /-- Go: "Encoding must have at least two characters.". -/
  | AlphabetTooShort
  /-- Go: "%q appears multiple times." (the offending grapheme). -/
  | InvalidAlphabet (g : String)
  /-- Go: "Input cannot be 0." (Roman). -/
  | ZeroInput
deriving DecidableEq, Repr

deriving instance DecidableEq for Except

/-! ## GraphemeSplitter (`chars`)

The Go `chars` iterates `golang.org/x/text/unicode/norm` NFC boundaries.
That library is external to this repository, so the splitter is modelled
from the spec.  -/

/-- Modelled from the spec: the class of combining marks recognised by the
model of canonical (NFC) composition.  The missing piece is the Unicode
character database used by golang.org/x/text/unicode/norm; the model uses
the Combining Diacritical Marks block U+0300..U+036F, which contains every
combining mark exercised by the development.  CJK, emoji and ASCII symbols
are outside this range and therefore always stand alone. -/
def isCombining (c : Char) : Bool :=
  0x300 ≤ c.toNat && c.toNat ≤ 0x36F

/-- Modelled from the spec: canonical composition of a base character with a
following combining mark ("a base letter followed by combining marks becomes
one composed grapheme wherever a precomposed form exists").  The missing
piece is the full Unicode composition table; the model carries the exemplar
precomposed pairs used by the development. -/
def composePair (b m : Char) : Option Char :=
  if b = 'e' && m = Char.ofNat 0x301 then some (Char.ofNat 0xE9)
  else if b = 'a' && m = Char.ofNat 0x301 then some (Char.ofNat 0xE1)
  else if b = 'n' && m = Char.ofNat 0x303 then some (Char.ofNat 0xF1)
  else none

/-- Modelled from the spec: one NFC segment at a time.  `base` is the
current (possibly already composed) starter, `marks` the pending combining
marks that did not compose (kept in reverse order), and the third argument
the rest of the input.  A following combining mark composes into the starter
whenever a precomposed form exists and no uncomposed mark intervenes;
otherwise it stays inside the same segment.  A non-combining character
closes the segment and starts the next one. -/
def nfcSeg (base : Char) (marks : List Char) : List Char → List (List Char)
  | [] => [base :: marks.reverse]
  | c :: rest =>
    if isCombining c then
      match composePair base c with
      | some comp =>
        if marks.isEmpty then nfcSeg comp [] rest
        else nfcSeg base (c :: marks) rest
      | none => nfcSeg base (c :: marks) rest
    else (base :: marks.reverse) :: nfcSeg c [] rest

/-- Modelled from the spec: the grapheme splitter `chars` of the Go source,
which returns the NFC-normalised user-perceived characters of `s` in order
(an empty input yields an empty sequence). -/
def chars (s : String) : List String :=
  match s.data with
  | [] => []
  | c :: rest => (nfcSeg c [] rest).map (fun seg => String.mk seg)

/-! ## Alphabet validation (`uniqueSet`) -/

/-- Loop body of `uniqueSet`: `seen` is the set of graphemes already
visited (Go uses a map; the model uses a list, with the same membership
test), and the second argument the remaining graphemes. -/
def uniqueSetGo (seen : List String) : List String → Except NumError Unit
  | [] => .ok ()
  | s :: ss =>
    if s ∈ seen then .error (.InvalidAlphabet s)
    else uniqueSetGo (s :: seen) ss

/-- Go `uniqueSet`: reports the first grapheme that appears a second time. -/
def uniqueSet (ss : List String) : Except NumError Unit :=
  uniqueSetGo [] ss

/-! ## PositionalEncoder (`Encode`), canonical direct place-value revision -/

/-- The `for quotient != 0` loop of the canonical `Encode`:
each iteration prepends `enc[quotient % length]` and divides the quotient by
`length = b`.  `fuel` bounds the number of iterations; `Encode` passes
`fuel = q`, which suffices because the loop only runs with `b ≥ 2`, where
the quotient at least halves each iteration (so at most `log2 q + 1 ≤ q`
iterations happen for `q ≥ 1`). -/
def encodeLoop (enc : List String) (b : Nat) : Nat → Nat → String → String
  | 0, _, result => result
  | fuel + 1, q, result =>
    if q = 0 then result
    else encodeLoop enc b fuel (q / b) (enc.getD (q % b) "" ++ result)

/-- The part of the canonical `Encode` after `enc := chars(encoding)`:
duplicate-grapheme validation, the `n == 0` fast path returning `enc[0]`,
the minimum-length check, then the place-value loop. -/
def encodeWithAlphabet (n : Int) (enc : List String) : Except NumError String :=
  match uniqueSet enc with
  | .error e => .error e
  | .ok _ =>
    if n = 0 then .ok (enc.getD 0 "")
    else if enc.length = 1 then .error .AlphabetTooShort
    else .ok (encodeLoop enc enc.length n.toNat n.toNat "")

/-- Go `Encode` (canonical revision, `num.go`): validation in source order
(negative input, empty encoding, duplicate graphemes), then the `n == 0`
fast path, then the minimum-length check, then the place-value loop. -/
def Encode (n : Int) (encoding : String) : Except NumError String :=
  if n < 0 then .error (.NegativeInput n)
  else if encoding = "" then .error .EmptyAlphabet
  else encodeWithAlphabet n (chars encoding)

/-- Go `Alpha`: `Encode` with the fixed 52-letter alphabet. -/
def Alpha (n : Int) : Except NumError String :=
  Encode n "ABCDEFGHIJKLMNOPQRSTUVWXYZabcdefghijklmnopqrstuvwxyz"

/-! ## PositionalEncoder, earlier bijective/off-by-one revision -/

/-- The loop of the earlier `Encode` revision: each iteration decrements the
quotient before dividing (`decremented := quotient - 1`), prepending
`enc[decremented % length]`.  `fuel` bounds iterations; the callers pass
`fuel = q`, which suffices because `(q - 1) / b ≤ q - 1` makes the quotient
strictly decrease every iteration.  (For an empty alphabet the Go loop
divides by zero and panics; that case is not exercised by any claim.) -/
def encodeLoopOld (enc : List String) (b : Nat) : Nat → Nat → String → String
  | 0, _, result => result
  | fuel + 1, q, result =>
    if q = 0 then result
    else encodeLoopOld enc b fuel ((q - 1) / b) (enc.getD ((q - 1) % b) "" ++ result)

/-- Go `Encode` (earlier revision): only the negativity check, then `n++`
("Our loop below won't begin if n was 0.") and the decrement-before-divide
loop, which yields a bijective (zero-less) numeral of `n + 1`. -/
def EncodeOld (n : Int) (encoding : String) : Except NumError String :=
  if n < 0 then .error (.NegativeInput n)
  else .ok (encodeLoopOld (chars encoding) (chars encoding).length
    (n.toNat + 1) (n.toNat + 1) "")

/-! ## RomanEncoder (`Roman`) -/

/-- Go helper `repeat` / `strings.Repeat`: `s` concatenated `n` times. -/
def repeatStr (s : String) (n : Nat) : String :=
  (List.replicate n s).foldl (· ++ ·) ""

/-- The fixed descending table of 13 (magnitude, symbol) pairs of `Roman`. -/
def multiples : List (Nat × String) :=
  [(1000, "M"), (900, "CM"),
   (500, "D"), (400, "CD"),
   (100, "C"), (90, "XC"),
   (50, "L"), (40, "XL"),
   (10, "X"), (9, "IX"),
   (5, "V"), (4, "IV"),
   (1, "I")]

/-- Go `Roman`: rejects zero and negative input, then walks `multiples` in
order, appending each symbol `n / magnitude` times and reducing
`n` to `n % magnitude`. -/
def Roman (n : Int) : Except NumError String :=
  if n = 0 then .error .ZeroInput
  else if n < 0 then .error (.NegativeInput n)
  else
    .ok (multiples.foldl
      (fun (st : String × Nat) m => (st.1 ++ repeatStr m.2 (st.2 / m.1), st.2 % m.1))
      ("", n.toNat)).1

/-! ## WordEncoder (`Word`) -/

/-- The fixed descending unit table of `Word` (note the source spells 40
as "fourty"). -/
def units : List (Nat × String) :=
  [(1000000000, "billion"),
   (1000000, "million"),
   (1000, "thousand"),
   (100, "hundred"),
   (90, "ninety"),
   (80, "eighty"),
   (70, "seventy"),
   (60, "sixty"),
   (50, "fifty"),
   (40, "fourty"),
   (30, "thirty"),
   (20, "twenty"),
   (19, "nineteen"),
   (18, "eighteen"),
   (17, "seventeen"),
   (16, "sixteen"),
   (15, "fifteen"),
   (14, "fourteen"),
   (13, "thirteen"),
   (12, "twelve"),
   (11, "eleven"),
   (10, "ten"),
   (9, "nine"),
   (8, "eight"),
   (7, "seven"),
   (6, "six"),
   (5, "five"),
   (4, "four"),
   (3, "three"),
   (2, "two"),
   (1, "one")]

/-- Go `strings.HasSuffix(s, "-")`: all strings built by `Word` are ASCII,
so the byte-suffix test is the last-character test. -/
def endsWithHyphen (s : String) : Bool :=
  s.data.getLast? = some '-'

/-- The unit walk of Go `Word` for a positive argument: a fold over `units`
carrying the output string and the remaining value, with the source's
joining rules (" and " before sub-hundred units unless the output ends in a
hyphen, "one " before single large units, a hyphen between compound tens
and ones).  When a unit occurs more than once the source recurses through
`Word` on the instance count, which is ≥ 2 and hence takes the positive
path again; the model calls `wordGo` directly.  `fuel` bounds the recursion
depth; `Word` passes `fuel = n`, which suffices because a nested call only
happens with `instances = n' / u ≥ 2` for a unit `u ≥ 2` (by the time the
walk reaches the unit 1 the residue is already < 2), so the argument at
least halves while the fuel drops by one. -/
def wordGo : Nat → Nat → String
  | 0, _ => ""
  | fuel + 1, n =>
    (units.foldl
      (fun (st : String × Nat) u =>
        let instances := st.2 / u.1
        let rest := st.2 % u.1
        if instances = 0 then (st.1, rest)
        else
          let s1 :=
            if 0 < st.1.length ∧ endsWithHyphen st.1 = false then
              (if u.1 < 100 then st.1 ++ " and" else st.1) ++ " "
            else st.1
          if instances = 1 then
            let s2 := (if 100 ≤ u.1 then s1 ++ "one " else s1) ++ u.2
            let s3 := if u.1 < 100 ∧ 0 < rest then s2 ++ "-" else s2
            (s3, rest)
          else
            (s1 ++ wordGo fuel instances ++ " " ++ u.2, rest))
      ("", n)).1

/-- Go `Word`: zero is special-cased, a negative argument is rendered from
its absolute value and prefixed with "negative " just before returning. -/
def Word (n : Int) : String :=
  if n = 0 then "zero"
  else if n < 0 then "negative " ++ wordGo (-n).toNat (-n).toNat
  else wordGo n.toNat n.toNat

/-! ## ByteFormatter (`Bytes`)

The Go `Bytes` computes in `float64`.  The model computes in `ℚ`: for every
input magnitude the claims exercise (|n| < 2^53) the conversion of `n` to
`float64` is exact and the divisions by the power-of-two unit sizes only
shift the exponent, so every intermediate `float64` value is exactly the
rational computed here and every comparison and formatting decision
coincides. -/

/-- Go constant `kiB = 1024` (float64). -/
def kiB : ℚ := 1024

/-- Go constant `miB = kiB * 1024`. -/
def miB : ℚ := kiB * 1024

/-- Go constant `giB = miB * 1024`. -/
def giB : ℚ := miB * 1024

/-- Go `int(f)`: truncation toward zero. -/
def itrunc (q : ℚ) : Int :=
  if q < 0 then -⌊-q⌋ else ⌊q⌋

/-- Go `math.Round`: round half away from zero. -/
def rnd (q : ℚ) : Int :=
  if q < 0 then -⌊-q + 1/2⌋ else ⌊q + 1/2⌋

/-- The tenths numeral of `q`: `q * 10` correctly rounded to an integer,
ties to even (the rounding of Go's strconv fixed-precision formatting). -/
def fmt1Round (q : ℚ) : Int :=
  if (1 : ℚ)/2 < q * 10 - ⌊q * 10⌋ then ⌊q * 10⌋ + 1
  else if q * 10 - ⌊q * 10⌋ < (1 : ℚ)/2 then ⌊q * 10⌋
  else if ⌊q * 10⌋ % 2 = 0 then ⌊q * 10⌋ else ⌊q * 10⌋ + 1

/-- Go `fmt.Sprintf("%.1f", f)` for the nonnegative values `Bytes` formats:
the decimal numeral of `f` correctly rounded to one fractional digit. -/
def fmt1 (q : ℚ) : String :=
  toString (fmt1Round q / 10) ++ "." ++ toString (fmt1Round q % 10)

/-- The common tail of Go `Bytes` once a unit is chosen: the fractional
part of the scaled value selects integer rounding (`%.0f` of
`math.Round f`) below 0.1 or above 0.9, and one decimal place (`%.1f`)
otherwise. -/
def bytesScaled (f : ℚ) (unit : String) : String :=
  if f - (itrunc f : ℚ) < 1/10 ∨ 9/10 < f - (itrunc f : ℚ) then
    toString (rnd f) ++ unit
  else fmt1 f ++ unit

/-- Go `Bytes`: pick the largest unit among GB, MB, KB whose scaled value
exceeds the 0.95 threshold, else print the byte count with suffix "B". -/
def Bytes (n : Int) : String :=
  if 95/100 < (n : ℚ) / giB then bytesScaled ((n : ℚ) / giB) "GB"
  else if 95/100 < (n : ℚ) / miB then bytesScaled ((n : ℚ) / miB) "MB"
  else if 95/100 < (n : ℚ) / kiB then bytesScaled ((n : ℚ) / kiB) "KB"
  else toString n ++ "B"

/-! ## Specification-side descriptions

The spec describes the canonical numeral as the place-value expansion of
`n` in the radix `b` (most significant digit first), grounded here in
Mathlib's `Nat.digits`. -/

/-- Concatenation of the alphabet symbols selected by a digit-position
list (most significant first): the numeral string the spec describes. -/
def render (enc : List String) (ds : List Nat) : String :=
  (ds.map (fun d => enc.getD d "")).foldr (· ++ ·) ""

/-- The digit-position sequence (most significant first) the spec
prescribes for value `m` in radix `b`: the reserved zero digit `[0]` for
`m = 0`, the standard place-value expansion otherwise. -/
def positions (b m : Nat) : List Nat :=
  if m = 0 then [0] else (Nat.digits b m).reverse

/-! ### String append helpers -/

theorem string_empty_append (s : String) : "" ++ s = s := by
  cases s
  rfl

theorem string_append_empty (s : String) : s ++ "" = s := by
  apply String.ext
  simp

theorem string_append_assoc (a b c : String) : a ++ b ++ c = a ++ (b ++ c) := by
  apply String.ext
  simp

theorem foldr_append_str (l : List String) (s : String) :
    l.foldr (· ++ ·) s = l.foldr (· ++ ·) "" ++ s := by
  induction l with
  | nil => simp [string_empty_append]
  | cons a t ih => simp only [List.foldr_cons, ih, string_append_assoc]

theorem render_nil (enc : List String) : render enc [] = "" := rfl

theorem render_cons (enc : List String) (d : Nat) (t : List Nat) :
    render enc (d :: t) = enc.getD d "" ++ render enc t := rfl

theorem render_snoc (enc : List String) (l : List Nat) (d : Nat) :
    render enc (l ++ [d]) = render enc l ++ enc.getD d "" := by
  simp only [render, List.map_append, List.map_cons, List.map_nil,
    List.foldr_append, List.foldr_cons, List.foldr_nil]
  rw [string_append_empty, foldr_append_str]

/-! ### The canonical loop computes the place-value numeral -/

theorem encodeLoop_eq_render (enc : List String) (b : Nat) (hb : 2 ≤ b) :
    ∀ fuel q result, q ≤ fuel →
      encodeLoop enc b fuel q result = render enc (Nat.digits b q).reverse ++ result := by
  intro fuel
  induction fuel with
  | zero =>
    intro q result hq
    have : q = 0 := by omega
    subst this
    simp [encodeLoop, render, string_empty_append]
  | succ fuel ih =>
    intro q result hq
    by_cases h0 : q = 0
    · subst h0
      simp [encodeLoop, render, string_empty_append]
    · have hlt : q / b < q := Nat.div_lt_self (by omega) (by omega)
      rw [encodeLoop, if_neg h0, ih (q / b) _ (by omega)]
      rw [Nat.digits_def' (by omega : 1 < b) (by omega : 0 < q), List.reverse_cons,
        render_snoc, string_append_assoc]

/-- The canonical `Encode` on a validated alphabet returns exactly the
rendered place-value digit sequence. -/
theorem Encode_ok (n : Int) (encoding : String) (hn : 0 ≤ n)
    (hu : uniqueSet (chars encoding) = .ok ())
    (hlen : 2 ≤ (chars encoding).length) :
    Encode n encoding =
      .ok (render (chars encoding) (positions (chars encoding).length n.toNat)) := by
  have hne : encoding ≠ "" := by
    intro h
    rw [h] at hlen
    simp [chars] at hlen
  rw [Encode, if_neg (by omega), if_neg hne, encodeWithAlphabet, hu]
  by_cases h0 : n = 0
  · subst h0
    simp [positions, render_cons, render_nil, string_append_empty]
  · rw [if_neg h0, if_neg (by omega)]
    have htn : n.toNat ≠ 0 := by omega
    rw [encodeLoop_eq_render _ _ hlen _ _ _ le_rfl, positions, if_neg htn,
      string_append_empty]

/-! ### Big-endian digit value and the lexicographic comparison lemma -/

/-- Value of a big-endian digit list in radix `b`. -/
def valBE (b : Nat) (l : List Nat) : Nat :=
  l.foldl (fun acc d => acc * b + d) 0

theorem valBE_foldl (b : Nat) (l : List Nat) :
    ∀ acc, l.foldl (fun acc d => acc * b + d) acc = acc * b ^ l.length + valBE b l := by
  induction l with
  | nil => intro acc; simp [valBE]
  | cons d t ih =>
    intro acc
    simp only [List.foldl_cons, List.length_cons, valBE] at *
    rw [ih (acc * b + d), ih (0 * b + d)]
    ring

theorem valBE_cons (b d : Nat) (t : List Nat) :
    valBE b (d :: t) = d * b ^ t.length + valBE b t := by
  show List.foldl _ _ _ = _
  rw [List.foldl_cons, valBE_foldl]
  ring_nf

theorem valBE_snoc (b d : Nat) (l : List Nat) :
    valBE b (l ++ [d]) = valBE b l * b + d := by
  simp [valBE, List.foldl_append]

theorem valBE_lt_pow (b : Nat) (_hb : 1 ≤ b) :
    ∀ l : List Nat, (∀ d ∈ l, d < b) → valBE b l < b ^ l.length := by
  intro l
  induction l with
  | nil => intro _; simp [valBE]
  | cons d t ih =>
    intro hl
    have hd : d < b := hl d (by simp)
    have ht : valBE b t < b ^ t.length := ih (fun x hx => hl x (by simp [hx]))
    rw [valBE_cons, List.length_cons]
    calc d * b ^ t.length + valBE b t
        < d * b ^ t.length + b ^ t.length := by omega
      _ = (d + 1) * b ^ t.length := by ring
      _ ≤ b * b ^ t.length := Nat.mul_le_mul_right _ hd
      _ = b ^ (t.length + 1) := by ring

theorem valBE_reverse (b : Nat) (l : List Nat) :
    valBE b l.reverse = Nat.ofDigits b l := by
  induction l with
  | nil => simp [valBE, Nat.ofDigits_nil]
  | cons d t ih =>
    rw [List.reverse_cons, valBE_snoc, ih, Nat.ofDigits_cons]
    ring

/-- Equal-length big-endian digit lists compare lexicographically exactly as
their values. -/
theorem lex_of_valBE_lt (b : Nat) :
    ∀ l1 l2 : List Nat, l1.length = l2.length →
      (∀ d ∈ l1, d < b) → (∀ d ∈ l2, d < b) →
      valBE b l1 < valBE b l2 → List.Lex (· < ·) l1 l2 := by
  intro l1
  induction l1 with
  | nil =>
    intro l2 hlen _ _ hv
    cases l2 with
    | nil => simp [valBE] at hv
    | cons c t2 => simp at hlen
  | cons a t1 ih =>
    intro l2 h1len h1 h2 hv
    cases l2 with
    | nil => simp at h1len
    | cons c t2 =>
      have hk : t1.length = t2.length := by simpa using h1len
      rw [valBE_cons, valBE_cons, hk] at hv
      have ha : a < b := h1 a (by simp)
      have hb1 : 1 ≤ b := by omega
      have hv2 : valBE b t2 < b ^ t2.length :=
        valBE_lt_pow b hb1 t2 (fun x hx => h2 x (by simp [hx]))
      rcases Nat.lt_trichotomy a c with h | h | h
      · exact List.Lex.rel h
      · subst h
        have hlt : valBE b t1 < valBE b t2 := Nat.lt_of_add_lt_add_left hv
        exact List.Lex.cons
          (ih t2 hk (fun x hx => h1 x (by simp [hx])) (fun x hx => h2 x (by simp [hx])) hlt)
      · exfalso
        have hca : c + 1 ≤ a := h
        have step1 : c * b ^ t2.length + valBE b t2 < (c + 1) * b ^ t2.length := by
          have : (c + 1) * b ^ t2.length = c * b ^ t2.length + b ^ t2.length := by ring
          omega
        have step2 : (c + 1) * b ^ t2.length ≤ a * b ^ t2.length :=
          Nat.mul_le_mul_right _ hca
        have : c * b ^ t2.length + valBE b t2 < a * b ^ t2.length + valBE b t1 := by
          have := Nat.le_add_right (a * b ^ t2.length) (valBE b t1)
          omega
        exact absurd hv (Nat.lt_asymm this)

/-! ### Length and order of the prescribed digit sequences -/

theorem positions_length_le (b : Nat) (hb : 2 ≤ b) {n1 n2 : Nat} (h : n1 < n2) :
    (positions b n1).length ≤ (positions b n2).length := by
  have hn2 : n2 ≠ 0 := by omega
  have hnil : Nat.digits b n2 ≠ [] := Nat.digits_ne_nil_iff_ne_zero.mpr hn2
  by_cases h1 : n1 = 0
  · subst h1
    rw [positions, if_pos rfl, positions, if_neg hn2]
    simp only [List.length_singleton, List.length_reverse]
    cases hd : Nat.digits b n2 with
    | nil => exact absurd hd hnil
    | cons x xs => simp
  · rw [positions, if_neg h1, positions, if_neg hn2]
    simp only [List.length_reverse]
    rw [Nat.digits_len b n1 hb h1, Nat.digits_len b n2 hb hn2]
    have := Nat.log_mono_right (b := b) (le_of_lt h)
    omega

theorem positions_lex (b : Nat) (hb : 2 ≤ b) {n1 n2 : Nat} (h : n1 < n2)
    (hlen : (positions b n1).length = (positions b n2).length) :
    List.Lex (· < ·) (positions b n1) (positions b n2) := by
  have hn2 : n2 ≠ 0 := by omega
  by_cases h1 : n1 = 0
  · subst h1
    rw [positions, if_pos rfl] at *
    rw [positions, if_neg hn2] at *
    obtain ⟨d, hd⟩ : ∃ d, Nat.digits b n2 = [d] := by
      rcases hdig : Nat.digits b n2 with _ | ⟨x, _ | ⟨y, ys⟩⟩
      · rw [hdig] at hlen
        simp at hlen
      · exact ⟨x, rfl⟩
      · rw [hdig] at hlen
        simp at hlen
    have hdval : d = n2 := by
      have hof := Nat.ofDigits_digits b n2
      rw [hd] at hof
      simpa using hof
    rw [hd]
    simp only [List.reverse_singleton]
    exact List.Lex.rel (by omega)
  · rw [positions, if_neg h1] at *
    rw [positions, if_neg hn2] at *
    apply lex_of_valBE_lt b _ _ hlen
    · intro d hd
      exact Nat.digits_lt_base hb (List.mem_reverse.mp hd)
    · intro d hd
      exact Nat.digits_lt_base hb (List.mem_reverse.mp hd)
    · rw [valBE_reverse, valBE_reverse, Nat.ofDigits_digits, Nat.ofDigits_digits]
      exact h

/-! ### The earlier revision renders bijective digits of `n + 1` -/

/-- The digit indices (little-endian) produced by the old loop on quotient
`q`: `(q - 1) % b`, then recurse on `(q - 1) / b`. -/
def bijDigits (b : Nat) (q : Nat) : List Nat :=
  if h : q = 0 then [] else (q - 1) % b :: bijDigits b ((q - 1) / b)
termination_by q
decreasing_by
  have hd : (q - 1) / b ≤ q - 1 := Nat.div_le_self _ _
  omega

theorem bijDigits_zero (b : Nat) : bijDigits b 0 = [] := by
  rw [bijDigits]
  simp

theorem bijDigits_of_pos (b : Nat) {q : Nat} (hq : q ≠ 0) :
    bijDigits b q = (q - 1) % b :: bijDigits b ((q - 1) / b) := by
  rw [bijDigits]
  simp [hq]

theorem bijDigits_lt (b : Nat) (hb : 1 ≤ b) :
    ∀ q, ∀ d ∈ bijDigits b q, d < b := by
  intro q
  induction q using Nat.strong_induction_on with
  | _ q ih =>
    intro d hd
    by_cases hq : q = 0
    · rw [hq, bijDigits_zero] at hd
      simp at hd
    · rw [bijDigits_of_pos b hq] at hd
      rcases List.mem_cons.mp hd with h | h
      · rw [h]
        exact Nat.mod_lt _ (by omega)
      · have hrec : (q - 1) / b < q := by
          have := Nat.div_le_self (q - 1) b
          omega
        exact ih _ hrec d h

/-- The bijective value of a digit-index list: index `d` stands for the
digit value `d + 1`. -/
def ofBijDigits (b : Nat) : List Nat → Nat
  | [] => 0
  | d :: t => (d + 1) + b * ofBijDigits b t

theorem ofBijDigits_bijDigits (b : Nat) : ∀ q, ofBijDigits b (bijDigits b q) = q := by
  intro q
  induction q using Nat.strong_induction_on with
  | _ q ih =>
    by_cases hq : q = 0
    · rw [hq, bijDigits_zero]
      rfl
    · rw [bijDigits_of_pos b hq]
      have hrec : (q - 1) / b < q := by
        have := Nat.div_le_self (q - 1) b
        omega
      show ((q - 1) % b + 1) + b * ofBijDigits b (bijDigits b ((q - 1) / b)) = q
      rw [ih _ hrec]
      have := Nat.mod_add_div (q - 1) b
      omega

/-- The repunit `1 + b + b^2 + ...` with `k` terms. -/
def repunit (b : Nat) : Nat → Nat
  | 0 => 0
  | k + 1 => 1 + b * repunit b k

theorem ofBijDigits_eq_ofDigits_add_repunit (b : Nat) :
    ∀ l : List Nat, ofBijDigits b l = Nat.ofDigits b l + repunit b l.length := by
  intro l
  induction l with
  | nil => rfl
  | cons d t ih =>
    show (d + 1) + b * ofBijDigits b t = _
    rw [ih, Nat.ofDigits_cons, List.length_cons]
    show _ = d + b * Nat.ofDigits b t + (1 + b * repunit b t.length)
    ring

theorem repunit_eq_one (b : Nat) (hb : 2 ≤ b) {k : Nat} (h : repunit b k = 1) :
    k = 1 := by
  match k with
  | 0 => simp [repunit] at h
  | 1 => rfl
  | k + 2 =>
    exfalso
    have h1 : 1 ≤ repunit b (k + 1) := by
      show 1 ≤ 1 + b * repunit b k
      omega
    have : repunit b (k + 2) = 1 + b * repunit b (k + 1) := rfl
    rw [this] at h
    have : 2 * 1 ≤ b * repunit b (k + 1) := Nat.mul_le_mul hb h1
    omega

theorem encodeLoopOld_eq_render (enc : List String) (b : Nat) :
    ∀ fuel q result, q ≤ fuel →
      encodeLoopOld enc b fuel q result =
        render enc (bijDigits b q).reverse ++ result := by
  intro fuel
  induction fuel with
  | zero =>
    intro q result hq
    have : q = 0 := by omega
    subst this
    simp [encodeLoopOld, bijDigits_zero, render, string_empty_append]
  | succ fuel ih =>
    intro q result hq
    by_cases h0 : q = 0
    · subst h0
      simp [encodeLoopOld, bijDigits_zero, render, string_empty_append]
    · have hle : (q - 1) / b ≤ fuel := by
        have := Nat.div_le_self (q - 1) b
        omega
      rw [encodeLoopOld, if_neg h0, ih _ _ hle, bijDigits_of_pos b h0,
        List.reverse_cons, render_snoc, string_append_assoc]

/-! ### Injectivity of the decimal rendering -/

/-- The decimal alphabet of the worked bijective/place-value comparison. -/
def decAlphabet : String := "0123456789"

/-- The character of decimal digit `d`. -/
def dchar (d : Nat) : Char := Char.ofNat (48 + d)

theorem dec_getD : ∀ d ∈ List.range 10,
    (chars decAlphabet).getD d "" = String.mk [dchar d] := by decide

theorem render_dec_data : ∀ l : List Nat, (∀ d ∈ l, d < 10) →
    (render (chars decAlphabet) l).data = l.map dchar := by
  intro l
  induction l with
  | nil => intro _; rfl
  | cons d t ih =>
    intro hl
    have hd : d < 10 := hl d (by simp)
    rw [render_cons, String.data_append, ih (fun x hx => hl x (by simp [hx])),
      dec_getD d (List.mem_range.mpr hd)]
    rfl

theorem dchar_inj : ∀ d1 ∈ List.range 10, ∀ d2 ∈ List.range 10,
    dchar d1 = dchar d2 → d1 = d2 := by decide

theorem map_dchar_inj : ∀ l1 l2 : List Nat, (∀ d ∈ l1, d < 10) →
    (∀ d ∈ l2, d < 10) → l1.map dchar = l2.map dchar → l1 = l2 := by
  intro l1
  induction l1 with
  | nil =>
    intro l2 _ _ h
    cases l2 with
    | nil => rfl
    | cons c t2 => simp at h
  | cons d t ih =>
    intro l2 h1 h2 h
    cases l2 with
    | nil => simp at h
    | cons c t2 =>
      simp only [List.map_cons, List.cons.injEq] at h
      have hdc : d = c :=
        dchar_inj d (List.mem_range.mpr (h1 d (by simp)))
          c (List.mem_range.mpr (h2 c (by simp))) h.1
      rw [hdc, ih t2 (fun x hx => h1 x (by simp [hx]))
        (fun x hx => h2 x (by simp [hx])) h.2]

/-- For every `n` above the radix the two historical revisions disagree on
the decimal alphabet. -/
theorem encodeOld_ne_encode_dec (n : Int) (hn : 10 < n) :
    EncodeOld n decAlphabet ≠ Encode n decAlphabet := by
  have hlen10 : (chars decAlphabet).length = 10 := by decide
  have hm10 : 10 < n.toNat := by omega
  have hm0 : n.toNat ≠ 0 := by omega
  have hEnc : Encode n decAlphabet =
      .ok (render (chars decAlphabet) (Nat.digits 10 n.toNat).reverse) := by
    rw [Encode_ok n decAlphabet (by omega) (by decide) (by rw [hlen10]; omega),
      hlen10, positions, if_neg hm0]
  have hOld : EncodeOld n decAlphabet =
      .ok (render (chars decAlphabet) (bijDigits 10 (n.toNat + 1)).reverse) := by
    rw [EncodeOld, if_neg (by omega), hlen10,
      encodeLoopOld_eq_render _ _ _ _ _ le_rfl, string_append_empty]
  intro heq
  rw [hOld, hEnc] at heq
  have hrender := Except.ok.inj heq
  have hbound1 : ∀ d ∈ (bijDigits 10 (n.toNat + 1)).reverse, d < 10 := by
    intro d hd
    exact bijDigits_lt 10 (by omega) _ d (List.mem_reverse.mp hd)
  have hbound2 : ∀ d ∈ (Nat.digits 10 n.toNat).reverse, d < 10 := by
    intro d hd
    exact Nat.digits_lt_base (by omega) (List.mem_reverse.mp hd)
  have hdata := congrArg String.data hrender
  rw [render_dec_data _ hbound1, render_dec_data _ hbound2] at hdata
  have hrev := map_dchar_inj _ _ hbound1 hbound2 hdata
  have hlists : bijDigits 10 (n.toNat + 1) = Nat.digits 10 n.toNat :=
    List.reverse_injective hrev
  have hval : ofBijDigits 10 (bijDigits 10 (n.toNat + 1)) = n.toNat + 1 :=
    ofBijDigits_bijDigits 10 _
  rw [hlists, ofBijDigits_eq_ofDigits_add_repunit, Nat.ofDigits_digits] at hval
  have hrep : repunit 10 (Nat.digits 10 n.toNat).length = 1 := by omega
  have hlen1 : (Nat.digits 10 n.toNat).length = 1 := repunit_eq_one 10 (by omega) hrep
  rw [Nat.digits_len 10 n.toNat (by omega) hm0] at hlen1
  have : 0 < Nat.log 10 n.toNat := Nat.log_pos (by omega) (by omega)
  omega

/-! ### Roman fold helpers -/

theorem romanFold_zero (ms : List (Nat × String)) (s : String) :
    (ms.foldl (fun (st : String × Nat) m =>
      (st.1 ++ repeatStr m.2 (st.2 / m.1), st.2 % m.1)) (s, 0)).1 = s := by
  induction ms generalizing s with
  | nil => rfl
  | cons m ms ih =>
    simp only [List.foldl_cons, Nat.zero_div, Nat.zero_mod]
    have h0 : repeatStr m.2 0 = "" := rfl
    rw [h0, string_append_empty]
    exact ih s

/-- There is no upper bound on Roman input: any multiple of 1000 renders as
that many copies of "M". -/
theorem roman_thousands (k : Nat) (hk : 1 ≤ k) :
    Roman (1000 * (k : Int)) = .ok (repeatStr "M" k) := by
  rw [Roman, if_neg (by omega), if_neg (by omega)]
  have htn : ((1000 : Int) * k).toNat = 1000 * k := by omega
  rw [htn]
  show Except.ok (List.foldl _ ("", 1000 * k) multiples).1 = _
  rw [multiples, List.foldl_cons]
  have hdiv : 1000 * k / 1000 = k := by omega
  have hmod : 1000 * k % 1000 = 0 := by omega
  rw [hdiv, hmod, string_empty_append, romanFold_zero]

/-! ## The claims -/

/-- C1: for every `n ≥ 0` and every alphabet of `b ≥ 2` distinct graphemes,
`Encode` produces the direct place-value numeral, most significant digit
first (`positions` is grounded in `Nat.digits`): `Encode 0` is the
alphabet's first symbol alone, and for `n ≥ 1` the result renders the
repeated remainder/quotient expansion; in particular
`Encode 4 "世界" = "界世世"`, `Encode 67427 "!@#$%^&*()" = "&*%#*"`,
`Alpha 52 = "BA"` and `Alpha 0 = "A"`. -/
theorem encode_place_value_spec :
    (∀ (n : Int) (encoding : String), 0 ≤ n →
      uniqueSet (chars encoding) = .ok () → 2 ≤ (chars encoding).length →
      Encode n encoding =
        .ok (render (chars encoding) (positions (chars encoding).length n.toNat))) ∧
    (∀ encoding : String,
      uniqueSet (chars encoding) = .ok () → 2 ≤ (chars encoding).length →
      Encode 0 encoding = .ok ((chars encoding).getD 0 "")) ∧
    Encode 4 "世界" = .ok "界世世" ∧
    Encode 67427 "!@#$%^&*()" = .ok "&*%#*" ∧
    Alpha 52 = .ok "BA" ∧ Alpha 0 = .ok "A" := by
  refine ⟨fun n encoding hn hu hl => Encode_ok n encoding hn hu hl, ?_,
    by decide, by decide, by decide, by decide⟩
  intro encoding hu hl
  rw [Encode_ok 0 encoding le_rfl hu hl]
  simp [positions, render_cons, render_nil, string_append_empty]

theorem encode_place_value_spec_witness :
    (0 : Int) ≤ 3 ∧ uniqueSet (chars "ab") = .ok () ∧ 2 ≤ (chars "ab").length ∧
    Encode 3 "ab" =
      .ok (render (chars "ab") (positions (chars "ab").length (3 : Int).toNat)) :=
  ⟨by decide, by decide, by decide,
    encode_place_value_spec.1 3 "ab" (by decide) (by decide) (by decide)⟩

/-- C2 (the code contradicts the claim and its own doc comment): the
`n == 0` fast path of `Encode` runs before the minimum-length check, so a
single-symbol alphabet is accepted at `n = 0` — `Encode 0 "A"` returns
`"A"` instead of failing with `AlphabetTooShort`. -/
theorem encode_zero_single_symbol :
    Encode 0 "A" = .ok "A" ∧ Encode 0 "A" ≠ .error .AlphabetTooShort :=
  ⟨by decide, by decide⟩

/-- C3: for a fixed valid alphabet (`b ≥ 2` distinct graphemes) and
`n1 < n2`, the numeral of `n1` is no longer than that of `n2`, and when the
digit sequences have equal length they compare lexicographically by
alphabet position exactly as the numbers; `Encode` returns precisely the
rendering of those digit sequences. -/
theorem encode_monotonicity (encoding : String) (n1 n2 : Nat)
    (hu : uniqueSet (chars encoding) = .ok ())
    (hlen : 2 ≤ (chars encoding).length) (h12 : n1 < n2) :
    (positions (chars encoding).length n1).length ≤
      (positions (chars encoding).length n2).length ∧
    ((positions (chars encoding).length n1).length =
        (positions (chars encoding).length n2).length →
      List.Lex (· < ·) (positions (chars encoding).length n1)
        (positions (chars encoding).length n2)) ∧
    Encode (n1 : Int) encoding =
      .ok (render (chars encoding) (positions (chars encoding).length n1)) ∧
    Encode (n2 : Int) encoding =
      .ok (render (chars encoding) (positions (chars encoding).length n2)) := by
  have h1 := Encode_ok (n1 : Int) encoding (by omega) hu hlen
  have h2 := Encode_ok (n2 : Int) encoding (by omega) hu hlen
  rw [Int.toNat_natCast] at h1 h2
  exact ⟨positions_length_le _ hlen h12, fun h => positions_lex _ hlen h12 h, h1, h2⟩

theorem encode_monotonicity_witness :
    uniqueSet (chars "ab") = .ok () ∧ 2 ≤ (chars "ab").length ∧ 2 < 3 ∧
    ((positions (chars "ab").length 2).length ≤
        (positions (chars "ab").length 3).length ∧
      ((positions (chars "ab").length 2).length =
          (positions (chars "ab").length 3).length →
        List.Lex (· < ·) (positions (chars "ab").length 2)
          (positions (chars "ab").length 3)) ∧
      Encode ((2 : Nat) : Int) "ab" =
        .ok (render (chars "ab") (positions (chars "ab").length 2)) ∧
      Encode ((3 : Nat) : Int) "ab" =
        .ok (render (chars "ab") (positions (chars "ab").length 3))) :=
  ⟨by decide, by decide, by decide,
    encode_monotonicity "ab" 2 3 (by decide) (by decide) (by decide)⟩

/-- C4 counterexample: the claim says base-10 value 10 encodes as "11"
under the bijective scheme; the old revision actually yields "00" (it
pre-increments `n`, so 10 is rendered as the zero-less numeral of 11). -/
theorem bijective_encode_ten_counterexample :
    EncodeOld 10 "0123456789" = .ok "00" ∧
    EncodeOld 10 "0123456789" ≠ .ok "11" :=
  ⟨by decide, by decide⟩

/-- C4 amended: the two historical revisions are not interchangeable — on
the base-10 alphabet they produce different strings for every `n` above the
radix, and at the worked value 10 the bijective revision yields "00" (not
"11") while the direct place-value revision yields "10". -/
theorem bijective_vs_place_value :
    (∀ n : Int, 10 < n → EncodeOld n "0123456789" ≠ Encode n "0123456789") ∧
    EncodeOld 10 "0123456789" = .ok "00" ∧
    Encode 10 "0123456789" = .ok "10" :=
  ⟨fun n hn => encodeOld_ne_encode_dec n hn, by decide, by decide⟩

theorem bijective_vs_place_value_witness :
    (10 : Int) < 25 ∧ EncodeOld 25 "0123456789" ≠ Encode 25 "0123456789" :=
  ⟨by decide, bijective_vs_place_value.1 25 (by decide)⟩

/-- C5 counterexample: the claim requires `Encode n ""` to fail with
`EmptyAlphabet` for every `n`, but at `n = -1` the negativity check runs
first and the failure is `NegativeInput`. -/
theorem encode_error_precedence_counterexample :
    Encode (-1) "" = .error (.NegativeInput (-1)) ∧
    Encode (-1) "" ≠ .error .EmptyAlphabet :=
  ⟨by decide, by decide⟩

/-- C5 amended: `Encode (-1)` fails with `NegativeInput` for every alphabet
(valid or not); for every `n ≥ 0`, `Encode n ""` fails with `EmptyAlphabet`
and `Encode n "aa"` fails with `InvalidAlphabet` reporting the duplicated
grapheme "a". -/
theorem encode_error_cases :
    (∀ encoding : String, Encode (-1) encoding = .error (.NegativeInput (-1))) ∧
    (∀ n : Int, 0 ≤ n → Encode n "" = .error .EmptyAlphabet) ∧
    (∀ n : Int, 0 ≤ n → Encode n "aa" = .error (.InvalidAlphabet "a")) := by
  refine ⟨?_, ?_, ?_⟩
  · intro encoding
    rw [Encode, if_pos (by decide)]
  · intro n hn
    rw [Encode, if_neg (by omega)]
    rfl
  · intro n hn
    rw [Encode, if_neg (by omega), if_neg (by decide)]
    rfl

theorem encode_error_cases_witness :
    (0 : Int) ≤ 7 ∧ Encode 7 "" = .error .EmptyAlphabet ∧
    Encode 7 "aa" = .error (.InvalidAlphabet "a") :=
  ⟨by decide, encode_error_cases.2.1 7 (by decide), encode_error_cases.2.2 7 (by decide)⟩

/-! ### Non-combining inputs split into single-scalar graphemes -/

theorem nfcSeg_all_plain : ∀ (rest : List Char) (c : Char),
    (∀ x ∈ rest, isCombining x = false) →
    nfcSeg c [] rest = [c] :: rest.map (fun x => [x]) := by
  intro rest
  induction rest with
  | nil => intro c _; rfl
  | cons d r ih =>
    intro c hrest
    have hd : isCombining d = false := hrest d (by simp)
    rw [nfcSeg, hd]
    simp only [Bool.false_eq_true, if_false, List.reverse_nil, List.map_cons]
    rw [ih d (fun x hx => hrest x (by simp [hx]))]

/-- C6: the character splitter used by `Encode` applies canonical (NFC)
composition — a base letter followed by a combining mark becomes the single
precomposed grapheme wherever one exists — while non-combining scalars
(emoji, CJK, ASCII) each count as one symbol, and an empty input yields an
empty sequence. -/
theorem chars_contract :
    chars "" = [] ∧
    (∀ b m c : Char, isCombining m = true → composePair b m = some c →
      chars (String.mk [b, m]) = [String.mk [c]]) ∧
    (∀ s : String, (∀ c ∈ s.data, isCombining c = false) →
      chars s = s.data.map (fun c => String.mk [c])) := by
  refine ⟨rfl, ?_, ?_⟩
  · intro b m c hm hc
    show (nfcSeg b [] [m]).map _ = _
    rw [nfcSeg, hm]
    simp only [if_true, hc, List.isEmpty_nil, if_pos]
    rfl
  · intro s hs
    cases s with
    | mk data =>
      cases data with
      | nil => rfl
      | cons c rest =>
        show (nfcSeg c [] rest).map _ = _
        rw [nfcSeg_all_plain rest c (fun x hx => hs x (by simp [hx]))]
        simp

theorem chars_contract_witness :
    isCombining (Char.ofNat 0x301) = true ∧
    composePair 'e' (Char.ofNat 0x301) = some (Char.ofNat 0xE9) ∧
    chars (String.mk ['e', Char.ofNat 0x301]) = [String.mk [Char.ofNat 0xE9]] ∧
    (∀ c ∈ ("世界" : String).data, isCombining c = false) ∧
    chars "世界" = ("世界" : String).data.map (fun c => String.mk [c]) :=
  ⟨by decide, by decide,
    chars_contract.2.1 'e' (Char.ofNat 0x301) (Char.ofNat 0xE9) (by decide) (by decide),
    by decide, chars_contract.2.2 "世界" (by decide)⟩

/-- C7: `Roman 0` fails with `ZeroInput` and every negative input fails
with `NegativeInput`; for `n ≥ 1` the fixed descending 13-entry table is
walked in order, appending each symbol `n / magnitude` times and reducing
`n` modulo the magnitude, with no upper bound on `n` (a multiple of 1000 is
just that many copies of "M"); in particular `Roman 1991 = "MCMXCI"` and
`Roman 4859 = "MMMMDCCCLIX"`. -/
theorem roman_spec :
    Roman 0 = .error .ZeroInput ∧
    (∀ n : Int, n < 0 → Roman n = .error (.NegativeInput n)) ∧
    multiples = [(1000, "M"), (900, "CM"), (500, "D"), (400, "CD"), (100, "C"),
      (90, "XC"), (50, "L"), (40, "XL"), (10, "X"), (9, "IX"), (5, "V"),
      (4, "IV"), (1, "I")] ∧
    (∀ k : Nat, 1 ≤ k → Roman (1000 * (k : Int)) = .ok (repeatStr "M" k)) ∧
    Roman 1991 = .ok "MCMXCI" ∧
    Roman 4859 = .ok "MMMMDCCCLIX" := by
  refine ⟨by decide, ?_, rfl, fun k hk => roman_thousands k hk, by decide, by decide⟩
  intro n hn
  rw [Roman, if_neg (by omega), if_pos hn]

theorem roman_spec_witness :
    Roman (-3) = .error (.NegativeInput (-3)) ∧
    Roman (1000 * ((4 : Nat) : Int)) = .ok (repeatStr "M" 4) :=
  ⟨roman_spec.2.1 (-3) (by decide), roman_spec.2.2.2.1 4 (by decide)⟩

set_option maxRecDepth 16000 in
/-- C8: `Word 0 = "zero"`; every negative input renders as "negative "
followed by the rendition of its absolute value, so
`Word (-5) = "negative five"`; and the joining rules produce
`Word 7232 = "seven thousand two hundred and thirty-two"`. -/
theorem word_spec :
    Word 0 = "zero" ∧
    (∀ n : Int, n < 0 → Word n = "negative " ++ Word (-n)) ∧
    Word (-5) = "negative five" ∧
    Word 7232 = "seven thousand two hundred and thirty-two" := by
  refine ⟨by decide, ?_, by decide, by decide⟩
  intro n hn
  rw [Word, if_neg (by omega), if_pos hn, Word, if_neg (by omega), if_neg (by omega)]

theorem word_spec_witness :
    (-7 : Int) < 0 ∧ Word (-7) = "negative " ++ Word (-(-7)) :=
  ⟨by decide, word_spec.2.1 (-7) (by decide)⟩

theorem bytes_600_eq : Bytes 600 = "600B" := by
  rw [Bytes, if_neg (by norm_num [giB, miB, kiB]), if_neg (by norm_num [miB, kiB]),
    if_neg (by norm_num [kiB])]
  rfl

theorem bytes_1000_eq : Bytes 1000 = "1KB" := by
  have hf : ((1000 : Int) : ℚ) / kiB = 125/128 := by norm_num [kiB]
  have hfl : ⌊(125/128 : ℚ)⌋ = 0 := Int.floor_eq_iff.mpr (by norm_num)
  have htr : itrunc ((125 : ℚ)/128) = 0 := by
    rw [itrunc, if_neg (by norm_num), hfl]
  have hrnd : rnd ((125 : ℚ)/128) = 1 := by
    rw [rnd, if_neg (by norm_num)]
    exact Int.floor_eq_iff.mpr (by norm_num)
  have hcond : ((125 : ℚ)/128 - ((0 : Int) : ℚ) < 1/10 ∨
      (9 : ℚ)/10 < (125 : ℚ)/128 - ((0 : Int) : ℚ)) := Or.inr (by norm_num)
  rw [Bytes, if_neg (by norm_num [giB, miB, kiB]), if_neg (by norm_num [miB, kiB]),
    if_pos (by norm_num [kiB]), hf, bytesScaled, htr, if_pos hcond, hrnd]
  rfl

theorem bytes_7e10_eq : Bytes 70000000000 = "65.2GB" := by
  have hf : ((70000000000 : Int) : ℚ) / giB = 68359375/1048576 := by
    norm_num [giB, miB, kiB]
  have hfl : ⌊(68359375/1048576 : ℚ)⌋ = 65 := Int.floor_eq_iff.mpr (by norm_num)
  have htr : itrunc ((68359375 : ℚ)/1048576) = 65 := by
    rw [itrunc, if_neg (by norm_num), hfl]
  have hfl10 : ⌊(68359375/1048576 : ℚ) * 10⌋ = 651 := by
    have h10 : (68359375/1048576 : ℚ) * 10 = 341796875/524288 := by norm_num
    rw [h10]
    exact Int.floor_eq_iff.mpr (by norm_num)
  have hround : fmt1Round ((68359375 : ℚ)/1048576) = 652 := by
    rw [fmt1Round, hfl10, if_pos (by norm_num)]
    norm_num
  have hcond : ¬((68359375 : ℚ)/1048576 - ((65 : Int) : ℚ) < 1/10 ∨
      (9 : ℚ)/10 < (68359375 : ℚ)/1048576 - ((65 : Int) : ℚ)) := by norm_num
  rw [Bytes, if_pos (by norm_num [giB, miB, kiB]), hf, bytesScaled, htr,
    if_neg hcond, fmt1, hround]
  rfl

/-- C9: `Bytes` picks the largest unit among GB, MB, KB whose 1024-based
scaled value exceeds 0.95, otherwise prints the plain byte count with
suffix "B" and no decimal point; the fractional part of the scaled value
selects integer rounding (below 0.1 or above 0.9) or exactly one decimal
place; in particular `Bytes 1000 = "1KB"`, `Bytes 600 = "600B"` and
`Bytes 70000000000 = "65.2GB"`. -/
theorem bytes_spec :
    Bytes 1000 = "1KB" ∧ Bytes 600 = "600B" ∧ Bytes 70000000000 = "65.2GB" ∧
    (∀ n : Int, ¬(95/100 < (n : ℚ) / giB) → ¬(95/100 < (n : ℚ) / miB) →
      ¬(95/100 < (n : ℚ) / kiB) → Bytes n = toString n ++ "B") := by
  refine ⟨bytes_1000_eq, bytes_600_eq, bytes_7e10_eq, ?_⟩
  intro n h1 h2 h3
  rw [Bytes, if_neg h1, if_neg h2, if_neg h3]

theorem bytes_spec_witness :
    ¬((95 : ℚ)/100 < ((600 : Int) : ℚ) / giB) ∧
    ¬((95 : ℚ)/100 < ((600 : Int) : ℚ) / miB) ∧
    ¬((95 : ℚ)/100 < ((600 : Int) : ℚ) / kiB) ∧
    Bytes 600 = toString (600 : Int) ++ "B" :=
  ⟨by norm_num [giB, miB, kiB], by norm_num [miB, kiB], by norm_num [kiB],
    bytes_spec.2.2.2 600 (by norm_num [giB, miB, kiB]) (by norm_num [miB, kiB])
      (by norm_num [kiB])⟩

/-- C10: whenever the tens unit 40 contributes, `Word` spells it with the
non-standard "fourty": the unit table maps 40 to "fourty",
`Word 40 = "fourty"` and `Word 44 = "fourty-four"`. -/
theorem word_fourty :
    (40, "fourty") ∈ units ∧ Word 40 = "fourty" ∧ Word 44 = "fourty-four" :=
  ⟨by decide, by decide, by decide⟩

end GoNum
